import Mathlib

/-!
# Verification of the BetMakers address-extraction script

Shallow embedding of `src/utils/addresses.py`:

```python
P = "/Users/shafu/bet-makers/broadcast/Deploy.chilliz.s.sol/88882/run-latest.json"
f = open(P)
d = json.load(f)
# there are some dups that we need to filter out
contractNames = []
for k in d["transactions"]:
    contractName = k["contractName"]
    if  contractName not in contractNames:
        print(contractName.ljust(12), k["contractAddress"])
        contractNames.append(contractName)
```

JSON objects are modelled as association lists from key strings to string
values (only string-valued fields are ever consumed by the script; a value of
a different JSON type on an ignored key is irrelevant to the behaviour, and
the two consumed keys hold strings by the input schema).  A Python dictionary
lookup `k["key"]` is total lookup returning `Option`: `none` models the
`KeyError` that a missing key raises.  `print(a, b)` emits the line
`a ++ " " ++ b` (the newline is implicit: output is a list of lines).
-/

namespace Addresses

/-- A transaction record: a JSON object, modelled as an association list of
string keys to string values.  Lookup takes the first binding. -/
abbrev Record := List (String × String)

/-- Python dictionary lookup `k["key"]`: `none` models a raised `KeyError`. -/
def getKey (k : Record) (key : String) : Option String :=
  List.lookup key k

/-- Python's `str.ljust(width)`: pad on the right with spaces to `width`,
return the string unchanged when it is already at least that long. -/
def ljust (s : String) (width : Nat) : String :=
  s ++ String.mk (List.replicate (width - s.length) ' ')

/-- The line printed by `print(contractName.ljust(12), k["contractAddress"])`
for a name/address pair: Python's `print` joins its arguments with one
space. -/
def fmtLine (p : String × String) : String :=
  ljust p.1 12 ++ " " ++ p.2

/-- The state of the script after the loop: the lines written to standard
output, the final value of the `contractNames` list, and the key whose
lookup raised an uncaught `KeyError` (`none` when the loop completed). -/
structure LoopResult where
  lines : List String
  contractNames : List String
  error : Option String
deriving DecidableEq, Repr

/-- The `for k in d["transactions"]` loop of the script, starting from a given
`contractNames` accumulator.  Each record's `contractName` is read first; a
missing key stops the loop with an error.  A name already in `contractNames`
skips the record entirely (its `contractAddress` is never read).  Otherwise
`contractAddress` is read (a missing key stops with an error after the lines
printed so far), the formatted line is printed, and the name is appended. -/
def extractLoop : List Record → List String → LoopResult
  | [], contractNames => ⟨[], contractNames, none⟩
  | k :: rest, contractNames =>
    match getKey k "contractName" with
    | none => ⟨[], contractNames, some "contractName"⟩
    | some contractName =>
      if contractName ∈ contractNames then
        extractLoop rest contractNames
      else
        match getKey k "contractAddress" with
        | none => ⟨[], contractNames, some "contractAddress"⟩
        | some contractAddress =>
          let r := extractLoop rest (contractNames ++ [contractName])
          ⟨fmtLine (contractName, contractAddress) :: r.lines,
           r.contractNames, r.error⟩

/-- The top-level JSON document `d`: the `transactions` key (`none` models its
absence, raising `KeyError` at `d["transactions"]`), together with any other
top-level keys, which the script never reads. -/
structure Doc where
  transactions : Option (List Record)
  extra : List (String × String)
deriving DecidableEq, Repr

/-- The script body after `json.load`: look up `d["transactions"]` and run the
loop with `contractNames = []`. -/
def run (d : Doc) : LoopResult :=
  match d.transactions with
  | none => ⟨[], [], some "transactions"⟩
  | some recs => extractLoop recs []

/-- The hardcoded input path `P` of the script. -/
def P : String :=
  "/Users/shafu/bet-makers/broadcast/Deploy.chilliz.s.sol/88882/run-latest.json"

/-- The whole script, parameterised by the file system (`fs path` is the file
content, `none` when the path does not exist, modelling `FileNotFoundError`
at `open(P)`) and by the JSON parser (`parse content = none` models
`json.JSONDecodeError` at `json.load(f)`).  Both failures happen before the
loop, so they produce no output lines. -/
def runScript (fs : String → Option String) (parse : String → Option Doc)
    (path : String) : LoopResult :=
  match fs path with
  | none => ⟨[], [], some "FileNotFoundError"⟩
  | some content =>
    match parse content with
    | none => ⟨[], [], some "JSONDecodeError"⟩
    | some d => run d

/-- The script as shipped: `runScript` at the hardcoded path `P`. -/
def script (fs : String → Option String) (parse : String → Option Doc) :
    LoopResult :=
  runScript fs parse P

/-! ## Specification-side notions -/

/-- The name/address pairs of a record list, `none` when some record lacks
either key (the schema-valid reading of the input). -/
def pairsOf : List Record → Option (List (String × String))
  | [] => some []
  | k :: rest =>
    match getKey k "contractName", getKey k "contractAddress" with
    | some n, some a => (pairsOf rest).map (fun ps => (n, a) :: ps)
    | _, _ => none

/-- Modelled from the spec: the subsequence of first occurrences.  Keeping,
for each name not in `seen`, the pair at the first index bearing that name,
in input order. -/
def firstSeenPairs : List (String × String) → List String →
    List (String × String)
  | [], _ => []
  | (n, a) :: rest, seen =>
    if n ∈ seen then firstSeenPairs rest seen
    else (n, a) :: firstSeenPairs rest (seen ++ [n])

/-- Modelled from the spec: the distinct values of a list in order of first
appearance, skipping values already in `seen`. -/
def firstDedupFrom (seen : List String) : List String → List String
  | [] => []
  | n :: rest =>
    if n ∈ seen then firstDedupFrom seen rest
    else n :: firstDedupFrom (seen ++ [n]) rest

/-! ## Concrete sample inputs (used to instantiate the theorems) -/

/-- The worked example of the spec: three records, `Token` repeated. -/
def sampleRecs : List Record :=
  [[("contractName", "Token"), ("contractAddress", "0xAA")],
   [("contractName", "Vault"), ("contractAddress", "0xBB")],
   [("contractName", "Token"), ("contractAddress", "0xCC")]]

/-- The worked example wrapped in a document. -/
def sampleDoc : Doc := ⟨some sampleRecs, []⟩

/-- The name/address pairs of `sampleRecs`. -/
def samplePairs : List (String × String) :=
  [("Token", "0xAA"), ("Vault", "0xBB"), ("Token", "0xCC")]

/-- A document whose top-level `transactions` key is absent. -/
def docNoTrans : Doc := ⟨none, [("foo", "bar")]⟩

/-- A document with a record that lacks `contractName`. -/
def docNoName : Doc := ⟨some [[("contractAddress", "0xAA")]], []⟩

/-- A document whose only record (hence a first occurrence) lacks
`contractAddress`. -/
def docNoAddrFirst : Doc := ⟨some [[("contractName", "X")]], []⟩

/-- A document whose second record repeats the first record's name and lacks
`contractAddress`. -/
def docDupNoAddr : Doc :=
  ⟨some [[("contractName", "Token"), ("contractAddress", "0xAA")],
         [("contractName", "Token")]], []⟩

/-- Records that fail mid-iteration: the first record prints a line, the
second is a fresh name lacking `contractAddress`. -/
def midFailRecs : List Record :=
  [[("contractName", "Token"), ("contractAddress", "0xAA")],
   [("contractName", "Vault")]]

/-- `midFailRecs` wrapped in a document. -/
def docMidFail : Doc := ⟨some midFailRecs, []⟩

/-- The worked example's records with additional ignored keys. -/
def sampleRecsExtra : List Record :=
  [[("contractName", "Token"), ("contractAddress", "0xAA"),
    ("gasUsed", "123")],
   [("hash", "0xdead"), ("contractName", "Vault"),
    ("contractAddress", "0xBB")],
   [("contractName", "Token"), ("contractAddress", "0xCC"),
    ("nonce", "7")]]

/-- The worked example with additional ignored keys at both levels. -/
def sampleDocExtra : Doc :=
  ⟨some sampleRecsExtra, [("chain", "88882"), ("commit", "abc")]⟩

/-! ## Unfolding equations for the loop -/

theorem extractLoop_cons_none (k : Record) (rest : List Record)
    (seen : List String) (hn : getKey k "contractName" = none) :
    extractLoop (k :: rest) seen = ⟨[], seen, some "contractName"⟩ := by
  rw [extractLoop, hn]

theorem extractLoop_cons_dup (k : Record) (rest : List Record)
    (seen : List String) (n : String) (hn : getKey k "contractName" = some n)
    (hmem : n ∈ seen) : extractLoop (k :: rest) seen = extractLoop rest seen := by
  rw [extractLoop, hn]
  simp only [if_pos hmem]

theorem extractLoop_cons_noaddr (k : Record) (rest : List Record)
    (seen : List String) (n : String) (hn : getKey k "contractName" = some n)
    (hmem : n ∉ seen) (ha : getKey k "contractAddress" = none) :
    extractLoop (k :: rest) seen = ⟨[], seen, some "contractAddress"⟩ := by
  rw [extractLoop, hn]
  simp only [if_neg hmem, ha]

theorem extractLoop_cons_new (k : Record) (rest : List Record)
    (seen : List String) (n a : String)
    (hn : getKey k "contractName" = some n) (hmem : n ∉ seen)
    (ha : getKey k "contractAddress" = some a) :
    extractLoop (k :: rest) seen =
      ⟨fmtLine (n, a) :: (extractLoop rest (seen ++ [n])).lines,
       (extractLoop rest (seen ++ [n])).contractNames,
       (extractLoop rest (seen ++ [n])).error⟩ := by
  rw [extractLoop, hn]
  simp only [if_neg hmem, ha]

/-! ## Lemmas about the specification-side notions -/

theorem mem_firstDedupFrom (x : String) :
    ∀ (l : List String) (seen : List String),
      x ∈ firstDedupFrom seen l ↔ x ∉ seen ∧ x ∈ l
  | [], seen => by simp [firstDedupFrom]
  | n :: rest, seen => by
    by_cases hmem : n ∈ seen
    · rw [firstDedupFrom, if_pos hmem, mem_firstDedupFrom x rest seen]
      constructor
      · rintro ⟨h1, h2⟩; exact ⟨h1, List.mem_cons_of_mem _ h2⟩
      · rintro ⟨h1, h2⟩
        rcases List.mem_cons.mp h2 with rfl | h2
        · exact absurd hmem h1
        · exact ⟨h1, h2⟩
    · rw [firstDedupFrom, if_neg hmem]
      constructor
      · intro h
        rcases List.mem_cons.mp h with rfl | h
        · exact ⟨hmem, List.mem_cons_self _ _⟩
        · obtain ⟨h1, h2⟩ := (mem_firstDedupFrom x rest (seen ++ [n])).mp h
          exact ⟨fun hx => h1 (List.mem_append_left _ hx),
            List.mem_cons_of_mem _ h2⟩
      · rintro ⟨h1, h2⟩
        rcases List.mem_cons.mp h2 with rfl | h2
        · exact List.mem_cons_self _ _
        · by_cases hxn : x = n
          · exact hxn ▸ List.mem_cons_self _ _
          · refine List.mem_cons_of_mem _
              ((mem_firstDedupFrom x rest (seen ++ [n])).mpr ⟨?_, h2⟩)
            intro hx
            rcases List.mem_append.mp hx with hx | hx
            · exact h1 hx
            · exact hxn (List.mem_singleton.mp hx)

theorem nodup_firstDedupFrom :
    ∀ (l : List String) (seen : List String), (firstDedupFrom seen l).Nodup
  | [], seen => by simp [firstDedupFrom]
  | n :: rest, seen => by
    by_cases hmem : n ∈ seen
    · simpa [firstDedupFrom, if_pos hmem] using nodup_firstDedupFrom rest seen
    · simp only [firstDedupFrom, if_neg hmem, List.nodup_cons]
      refine ⟨fun hn => ?_, nodup_firstDedupFrom rest (seen ++ [n])⟩
      have := (mem_firstDedupFrom n rest (seen ++ [n])).mp hn
      exact this.1 (by simp)

theorem firstDedupFrom_append (l₁ : List String) :
    ∀ (l₂ seen : List String),
      firstDedupFrom seen (l₁ ++ l₂) =
        firstDedupFrom seen l₁ ++
          firstDedupFrom (seen ++ firstDedupFrom seen l₁) l₂ := by
  induction l₁ with
  | nil => intro l₂ seen; simp [firstDedupFrom]
  | cons n rest ih =>
    intro l₂ seen
    by_cases hmem : n ∈ seen
    · simp [firstDedupFrom, if_pos hmem, ih]
    · simp only [List.cons_append, firstDedupFrom, if_neg hmem, List.append_eq]
      rw [ih l₂ (seen ++ [n])]
      simp [List.append_assoc]

theorem pairwise_indexOf_firstDedupFrom :
    ∀ (l seen : List String),
      (firstDedupFrom seen l).Pairwise
        (fun a b => l.indexOf a < l.indexOf b)
  | [], seen => by simp [firstDedupFrom]
  | n :: rest, seen => by
    by_cases hmem : n ∈ seen
    · simp only [firstDedupFrom, if_pos hmem]
      refine (pairwise_indexOf_firstDedupFrom rest seen).imp_of_mem ?_
      intro a b ha hb hlt
      have hane : a ≠ n := fun h =>
        ((mem_firstDedupFrom a rest seen).mp ha).1 (h ▸ hmem)
      have hbne : b ≠ n := fun h =>
        ((mem_firstDedupFrom b rest seen).mp hb).1 (h ▸ hmem)
      rw [List.indexOf_cons_ne _ (by simpa using hane.symm),
        List.indexOf_cons_ne _ (by simpa using hbne.symm)]
      omega
    · simp only [firstDedupFrom, if_neg hmem, List.pairwise_cons]
      constructor
      · intro b hb
        have hbne : b ≠ n := fun h =>
          ((mem_firstDedupFrom b rest (seen ++ [n])).mp hb).1 (by simp [h])
        rw [List.indexOf_cons_self, List.indexOf_cons_ne _ (by simpa using hbne.symm)]
        omega
      · refine (pairwise_indexOf_firstDedupFrom rest (seen ++ [n])).imp_of_mem ?_
        intro a b ha hb hlt
        have hane : a ≠ n := fun h =>
          ((mem_firstDedupFrom a rest (seen ++ [n])).mp ha).1 (by simp [h])
        have hbne : b ≠ n := fun h =>
          ((mem_firstDedupFrom b rest (seen ++ [n])).mp hb).1 (by simp [h])
        rw [List.indexOf_cons_ne _ (by simpa using hane.symm),
          List.indexOf_cons_ne _ (by simpa using hbne.symm)]
        omega

theorem firstSeenPairs_map_fst :
    ∀ (ps : List (String × String)) (seen : List String),
      (firstSeenPairs ps seen).map Prod.fst =
        firstDedupFrom seen (ps.map Prod.fst)
  | [], seen => by simp [firstSeenPairs, firstDedupFrom]
  | (n, a) :: rest, seen => by
    by_cases hmem : n ∈ seen
    · simp [firstSeenPairs, firstDedupFrom, hmem,
        firstSeenPairs_map_fst rest seen]
    · simp [firstSeenPairs, firstDedupFrom, hmem,
        firstSeenPairs_map_fst rest (seen ++ [n])]

theorem find?_of_mem_firstSeenPairs :
    ∀ (ps : List (String × String)) (seen : List String)
      (p : String × String), p ∈ firstSeenPairs ps seen →
      p.1 ∉ seen ∧ ps.find? (fun q => q.1 == p.1) = some p
  | [], _, p, h => by simp [firstSeenPairs] at h
  | (n, a) :: rest, seen, p, h => by
    by_cases hmem : n ∈ seen
    · rw [firstSeenPairs, if_pos hmem] at h
      obtain ⟨h1, h2⟩ := find?_of_mem_firstSeenPairs rest seen p h
      have hne : n ≠ p.1 := fun heq => h1 (heq ▸ hmem)
      refine ⟨h1, ?_⟩
      rw [List.find?_cons_of_neg, h2]
      simpa using hne
    · rw [firstSeenPairs, if_neg hmem] at h
      rcases List.mem_cons.mp h with rfl | h
      · exact ⟨hmem, by simp⟩
      · obtain ⟨h1, h2⟩ := find?_of_mem_firstSeenPairs rest (seen ++ [n]) p h
        have hne : p.1 ≠ n := fun hx => h1 (by simp [hx])
        refine ⟨fun hx => h1 (by simp [hx]), ?_⟩
        rw [List.find?_cons_of_neg, h2]
        simpa using Ne.symm hne

/-! ## Bridge between the loop and the specification-side notions -/

theorem extractLoop_pairsOf :
    ∀ (recs : List Record) (ps : List (String × String)) (seen : List String),
      pairsOf recs = some ps →
      extractLoop recs seen =
        ⟨(firstSeenPairs ps seen).map fmtLine,
         seen ++ (firstSeenPairs ps seen).map Prod.fst, none⟩
  | [], ps, seen, h => by
    simp only [pairsOf, Option.some.injEq] at h
    subst h
    simp [extractLoop, firstSeenPairs]
  | k :: rest, ps, seen, h => by
    rw [pairsOf] at h
    cases hn : getKey k "contractName" with
    | none => rw [hn] at h; cases h
    | some n =>
      cases ha : getKey k "contractAddress" with
      | none => rw [hn, ha] at h; cases h
      | some a =>
        rw [hn, ha] at h
        cases hps : pairsOf rest with
        | none => rw [hps] at h; cases h
        | some ps' =>
          rw [hps] at h
          simp only [Option.map_some', Option.some.injEq] at h
          subst h
          by_cases hmem : n ∈ seen
          · rw [extractLoop, hn]
            simp only [if_pos hmem]
            rw [extractLoop_pairsOf rest ps' seen hps]
            simp [firstSeenPairs, hmem]
          · rw [extractLoop, hn]
            simp only [if_neg hmem]
            rw [ha, extractLoop_pairsOf rest ps' (seen ++ [n]) hps]
            simp [firstSeenPairs, hmem]

theorem pairsOf_take :
    ∀ (recs : List Record) (ps : List (String × String)) (i : Nat),
      pairsOf recs = some ps → pairsOf (recs.take i) = some (ps.take i)
  | recs, ps, 0, _ => by simp [pairsOf]
  | [], ps, i + 1, h => by
    simp only [pairsOf, Option.some.injEq] at h
    subst h
    simp [pairsOf]
  | k :: rest, ps, i + 1, h => by
    rw [pairsOf] at h
    cases hn : getKey k "contractName" with
    | none => rw [hn] at h; cases h
    | some n =>
      cases ha : getKey k "contractAddress" with
      | none => rw [hn, ha] at h; cases h
      | some a =>
        rw [hn, ha] at h
        cases hps : pairsOf rest with
        | none => rw [hps] at h; cases h
        | some ps' =>
          rw [hps] at h
          simp only [Option.map_some', Option.some.injEq] at h
          subst h
          simp only [List.take_succ_cons, pairsOf, hn, ha,
            pairsOf_take rest ps' i hps, Option.map_some']

theorem pairsOf_of_keys :
    ∀ recs : List Record,
      (∀ k ∈ recs, getKey k "contractName" ≠ none ∧
        getKey k "contractAddress" ≠ none) →
      ∃ ps, pairsOf recs = some ps
  | [], _ => ⟨[], rfl⟩
  | k :: rest, h => by
    obtain ⟨hn, ha⟩ := h k (by simp)
    obtain ⟨ps', hps⟩ := pairsOf_of_keys rest (fun k' hk' => h k' (by simp [hk']))
    cases hgn : getKey k "contractName" with
    | none => exact absurd hgn hn
    | some n =>
      cases hga : getKey k "contractAddress" with
      | none => exact absurd hga ha
      | some a => exact ⟨(n, a) :: ps', by rw [pairsOf, hgn, hga, hps]; rfl⟩

/-! ## Formatting lemmas -/

theorem ljust_length (s : String) (width : Nat) :
    (ljust s width).length = max width s.length := by
  simp only [ljust, String.length_append, String.length_mk,
    List.length_replicate]
  omega

theorem ljust_eq_self (s : String) (width : Nat) (h : width ≤ s.length) :
    ljust s width = s := by
  rw [ljust, Nat.sub_eq_zero_of_le h]
  simp

/-! ## Provenance of printed lines -/

theorem mem_lines_extractLoop :
    ∀ (recs : List Record) (seen : List String) (l : String),
      l ∈ (extractLoop recs seen).lines →
      ∃ k ∈ recs, ∃ n a, getKey k "contractName" = some n ∧
        getKey k "contractAddress" = some a ∧ l = fmtLine (n, a)
  | [], seen, l, h => by simp [extractLoop] at h
  | k :: rest, seen, l, h => by
    cases hn : getKey k "contractName" with
    | none => rw [extractLoop, hn] at h; simp at h
    | some n =>
      rw [extractLoop, hn] at h
      by_cases hmem : n ∈ seen
      · simp only [if_pos hmem] at h
        obtain ⟨k', hk', hrest⟩ := mem_lines_extractLoop rest seen l h
        exact ⟨k', List.mem_cons_of_mem _ hk', hrest⟩
      · simp only [if_neg hmem] at h
        cases ha : getKey k "contractAddress" with
        | none => rw [ha] at h; simp at h
        | some a =>
          rw [ha] at h
          rcases List.mem_cons.mp h with rfl | h
          · exact ⟨k, List.mem_cons_self _ _, n, a, hn, ha, rfl⟩
          · obtain ⟨k', hk', hrest⟩ :=
              mem_lines_extractLoop rest (seen ++ [n]) l h
            exact ⟨k', List.mem_cons_of_mem _ hk', hrest⟩

/-! ## Error-path lemmas -/

theorem loop_error_of_missing_name :
    ∀ (recs : List Record) (seen : List String),
      (∃ k ∈ recs, getKey k "contractName" = none) →
      (extractLoop recs seen).error ≠ none
  | [], _, h => by simp at h
  | k :: rest, seen, ⟨k', hk', hk'n⟩ => by
    cases hn : getKey k "contractName" with
    | none => rw [extractLoop, hn]; simp
    | some n =>
      have hk'rest : k' ∈ rest := by
        rcases List.mem_cons.mp hk' with rfl | h
        · rw [hn] at hk'n; cases hk'n
        · exact h
      by_cases hmem : n ∈ seen
      · rw [extractLoop_cons_dup k rest seen n hn hmem]
        exact loop_error_of_missing_name rest seen ⟨k', hk'rest, hk'n⟩
      · cases ha : getKey k "contractAddress" with
        | none => rw [extractLoop_cons_noaddr k rest seen n hn hmem ha]; simp
        | some a =>
          rw [extractLoop_cons_new k rest seen n a hn hmem ha]
          exact loop_error_of_missing_name rest (seen ++ [n]) ⟨k', hk'rest, hk'n⟩

theorem loop_error_of_firstOcc_missing_addr :
    ∀ (pre : List Record) (k : Record) (post : List Record) (n : String)
      (seen : List String),
      getKey k "contractName" = some n →
      getKey k "contractAddress" = none →
      n ∉ seen →
      (∀ k' ∈ pre, getKey k' "contractName" ≠ some n) →
      (extractLoop (pre ++ k :: post) seen).error ≠ none
  | [], k, post, n, seen, hn, ha, hns, _ => by
    rw [List.nil_append, extractLoop_cons_noaddr k post seen n hn hns ha]
    simp
  | k' :: pre, k, post, n, seen, hn, ha, hns, hpre => by
    rw [List.cons_append]
    cases hn' : getKey k' "contractName" with
    | none => rw [extractLoop_cons_none _ _ _ hn']; simp
    | some m =>
      by_cases hmem : m ∈ seen
      · rw [extractLoop_cons_dup _ _ _ m hn' hmem]
        exact loop_error_of_firstOcc_missing_addr pre k post n seen hn ha hns
          (fun x hx => hpre x (List.mem_cons_of_mem _ hx))
      · cases ha' : getKey k' "contractAddress" with
        | none => rw [extractLoop_cons_noaddr _ _ _ m hn' hmem ha']; simp
        | some a' =>
          rw [extractLoop_cons_new _ _ _ m a' hn' hmem ha']
          have hnm : n ≠ m := fun h =>
            hpre k' (List.mem_cons_self _ _) (by rw [hn', h])
          exact loop_error_of_firstOcc_missing_addr pre k post n (seen ++ [m])
            hn ha
            (fun hx => (List.mem_append.mp hx).elim hns
              (fun hx => hnm (List.mem_singleton.mp hx)))
            (fun x hx => hpre x (List.mem_cons_of_mem _ hx))

theorem loop_error_none_of_pairs (recs : List Record)
    (ps : List (String × String)) (seen : List String)
    (h : pairsOf recs = some ps) : (extractLoop recs seen).error = none := by
  rw [extractLoop_pairsOf recs ps seen h]

/-! ## Mid-iteration failure: the output is the clean prefix -/

theorem loop_error_take :
    ∀ (recs : List Record) (seen : List String),
      (extractLoop recs seen).error ≠ none →
      ∃ i, i < recs.length ∧
        (extractLoop (recs.take i) seen).error = none ∧
        (extractLoop (recs.take i) seen).lines = (extractLoop recs seen).lines ∧
        (extractLoop (recs.take (i + 1)) seen).lines =
          (extractLoop (recs.take i) seen).lines ∧
        (extractLoop (recs.take (i + 1)) seen).error ≠ none
  | [], seen, h => by rw [extractLoop] at h; simp at h
  | k :: rest, seen, h => by
    cases hn : getKey k "contractName" with
    | none =>
      refine ⟨0, by simp, rfl, ?_, ?_, ?_⟩
      · rw [List.take_zero, extractLoop_cons_none k rest seen hn]; rfl
      · rw [List.take_succ_cons, List.take_zero,
          extractLoop_cons_none k _ seen hn, List.take_zero]; rfl
      · rw [List.take_succ_cons, List.take_zero,
          extractLoop_cons_none k _ seen hn]; simp
    | some n =>
      by_cases hmem : n ∈ seen
      · rw [extractLoop_cons_dup k rest seen n hn hmem] at h
        obtain ⟨i, hi, h1, h2, h3, h4⟩ := loop_error_take rest seen h
        refine ⟨i + 1, by simpa using hi, ?_, ?_, ?_, ?_⟩
        · rw [List.take_succ_cons, extractLoop_cons_dup k _ seen n hn hmem]
          exact h1
        · rw [List.take_succ_cons, extractLoop_cons_dup k _ seen n hn hmem,
            extractLoop_cons_dup k rest seen n hn hmem]
          exact h2
        · rw [List.take_succ_cons, List.take_succ_cons,
            extractLoop_cons_dup k _ seen n hn hmem,
            extractLoop_cons_dup k _ seen n hn hmem]
          exact h3
        · rw [List.take_succ_cons, extractLoop_cons_dup k _ seen n hn hmem]
          exact h4
      · cases ha : getKey k "contractAddress" with
        | none =>
          refine ⟨0, by simp, rfl, ?_, ?_, ?_⟩
          · rw [List.take_zero, extractLoop_cons_noaddr k rest seen n hn hmem ha]
            rfl
          · rw [List.take_succ_cons, List.take_zero,
              extractLoop_cons_noaddr k _ seen n hn hmem ha, List.take_zero]
            rfl
          · rw [List.take_succ_cons, List.take_zero,
              extractLoop_cons_noaddr k _ seen n hn hmem ha]
            simp
        | some a =>
          rw [extractLoop_cons_new k rest seen n a hn hmem ha] at h
          obtain ⟨i, hi, h1, h2, h3, h4⟩ :=
            loop_error_take rest (seen ++ [n]) h
          refine ⟨i + 1, by simpa using hi, ?_, ?_, ?_, ?_⟩
          · rw [List.take_succ_cons, extractLoop_cons_new k _ seen n a hn hmem ha]
            exact h1
          · rw [List.take_succ_cons, extractLoop_cons_new k _ seen n a hn hmem ha,
              extractLoop_cons_new k rest seen n a hn hmem ha]
            simp only [h2]
          · rw [List.take_succ_cons, List.take_succ_cons,
              extractLoop_cons_new k _ seen n a hn hmem ha,
              extractLoop_cons_new k _ seen n a hn hmem ha]
            simp only [h3]
          · rw [List.take_succ_cons, extractLoop_cons_new k _ seen n a hn hmem ha]
            exact h4

/-! ## The output depends only on the two consumed fields -/

theorem extractLoop_congr :
    ∀ (recs₁ recs₂ : List Record) (seen : List String),
      List.Forall₂ (fun k₁ k₂ =>
        getKey k₁ "contractName" = getKey k₂ "contractName" ∧
        getKey k₁ "contractAddress" = getKey k₂ "contractAddress") recs₁ recs₂ →
      extractLoop recs₁ seen = extractLoop recs₂ seen
  | [], recs₂, seen, h => by cases h; rfl
  | k₁ :: rest₁, recs₂, seen, h => by
    cases h with
    | cons hk hrest =>
      obtain ⟨hname, haddr⟩ := hk
      cases hn : getKey k₁ "contractName" with
      | none =>
        rw [extractLoop_cons_none _ _ _ hn,
          extractLoop_cons_none _ _ _ (by rw [← hname, hn])]
      | some n =>
        by_cases hmem : n ∈ seen
        · rw [extractLoop_cons_dup _ _ _ n hn hmem,
            extractLoop_cons_dup _ _ _ n (by rw [← hname, hn]) hmem]
          exact extractLoop_congr rest₁ _ seen hrest
        · cases ha : getKey k₁ "contractAddress" with
          | none =>
            rw [extractLoop_cons_noaddr _ _ _ n hn hmem ha,
              extractLoop_cons_noaddr _ _ _ n (by rw [← hname, hn]) hmem
                (by rw [← haddr, ha])]
          | some a =>
            rw [extractLoop_cons_new _ _ _ n a hn hmem ha,
              extractLoop_cons_new _ _ _ n a (by rw [← hname, hn]) hmem
                (by rw [← haddr, ha]),
              extractLoop_congr rest₁ _ (seen ++ [n]) hrest]

/-! ## Duplicate-name records are skipped entirely -/

theorem extractLoop_skip_dup :
    ∀ (pre : List Record) (k : Record) (post : List Record) (n : String)
      (seen : List String),
      getKey k "contractName" = some n →
      (∀ k' ∈ pre, getKey k' "contractName" ≠ none ∧
        getKey k' "contractAddress" ≠ none) →
      (n ∈ seen ∨ ∃ k' ∈ pre, getKey k' "contractName" = some n) →
      extractLoop (pre ++ k :: post) seen = extractLoop (pre ++ post) seen
  | [], k, post, n, seen, hn, _, hdup => by
    have hmem : n ∈ seen := by
      rcases hdup with h | ⟨k', hk', _⟩
      · exact h
      · simp at hk'
    rw [List.nil_append, List.nil_append, extractLoop_cons_dup k post seen n hn hmem]
  | k' :: pre, k, post, n, seen, hn, hkeys, hdup => by
    obtain ⟨hn', ha'⟩ := hkeys k' (List.mem_cons_self _ _)
    cases hgn : getKey k' "contractName" with
    | none => exact absurd hgn hn'
    | some m =>
      cases hga : getKey k' "contractAddress" with
      | none => exact absurd hga ha'
      | some a =>
        rw [List.cons_append, List.cons_append]
        by_cases hmem : m ∈ seen
        · rw [extractLoop_cons_dup _ _ _ m hgn hmem,
            extractLoop_cons_dup _ _ _ m hgn hmem]
          refine extractLoop_skip_dup pre k post n seen hn
            (fun x hx => hkeys x (List.mem_cons_of_mem _ hx)) ?_
          rcases hdup with h | ⟨x, hx, hxn⟩
          · exact Or.inl h
          · rcases List.mem_cons.mp hx with rfl | hx
            · rw [hgn] at hxn
              cases hxn
              exact Or.inl hmem
            · exact Or.inr ⟨x, hx, hxn⟩
        · rw [extractLoop_cons_new _ _ _ m a hgn hmem hga,
            extractLoop_cons_new _ _ _ m a hgn hmem hga]
          have hrec := extractLoop_skip_dup pre k post n (seen ++ [m]) hn
            (fun x hx => hkeys x (List.mem_cons_of_mem _ hx)) ?_
          · rw [hrec]
          · rcases hdup with h | ⟨x, hx, hxn⟩
            · exact Or.inl (List.mem_append_left _ h)
            · rcases List.mem_cons.mp hx with rfl | hx
              · rw [hgn] at hxn
                cases hxn
                exact Or.inl (by simp)
              · exact Or.inr ⟨x, hx, hxn⟩

/-! ## Further bridge lemmas -/

theorem run_transactions (d : Doc) (recs : List Record)
    (hd : d.transactions = some recs) : run d = extractLoop recs [] := by
  rw [run, hd]

theorem run_no_transactions (d : Doc) (hd : d.transactions = none) :
    run d = ⟨[], [], some "transactions"⟩ := by
  rw [run, hd]

theorem filter_fst_single :
    ∀ (l : List (String × String)) (p : String × String),
      (l.map Prod.fst).Nodup → p ∈ l →
      l.filter (fun q => q.1 == p.1) = [p]
  | [], p, _, hp => by simp at hp
  | q :: rest, p, hnd, hp => by
    simp only [List.map_cons, List.nodup_cons] at hnd
    obtain ⟨hq, hnd⟩ := hnd
    rcases List.mem_cons.mp hp with rfl | hp
    · rw [List.filter_cons_of_pos (by simp)]
      have hrest : rest.filter (fun q => q.1 == p.1) = [] := by
        rw [List.filter_eq_nil_iff]
        intro x hx
        simp only [beq_iff_eq]
        intro h1
        exact hq (by rw [← h1]; exact List.mem_map.mpr ⟨x, hx, rfl⟩)
      rw [hrest]
    · have hqp : ¬((fun q => q.1 == p.1) q = true) := by
        simp only [beq_iff_eq]
        intro h
        exact hq (by rw [h]; exact List.mem_map.mpr ⟨p, hp, rfl⟩)
      rw [List.filter_cons_of_neg (p := fun q => q.1 == p.1) (a := q) hqp,
        filter_fst_single rest p hnd hp]

theorem contractNames_take (recs : List Record) (ps : List (String × String))
    (i : Nat) (hps : pairsOf recs = some ps) :
    (extractLoop (recs.take i) []).contractNames =
      firstDedupFrom [] ((ps.take i).map Prod.fst) :=
  calc (extractLoop (recs.take i) []).contractNames
      = [] ++ (firstSeenPairs (ps.take i) []).map Prod.fst := by
        rw [extractLoop_pairsOf _ _ _ (pairsOf_take recs ps i hps)]
    _ = firstDedupFrom [] ((ps.take i).map Prod.fst) := by
        rw [List.nil_append, firstSeenPairs_map_fst]

/-! ## The claims -/

/-- C1: on a schema-valid input whose transactions repeat some contract name,
exactly one line is printed for that name, and its address is the
`contractAddress` of the record at the smallest index bearing that name
(`List.find?` returns the first match): first-seen wins, never last-wins. -/
theorem C1_first_seen_wins (d : Doc) (recs : List Record)
    (ps : List (String × String)) (n : String)
    (hd : d.transactions = some recs) (hps : pairsOf recs = some ps)
    (hmulti : 2 ≤ (ps.map Prod.fst).count n) :
    ∃ a, ps.find? (fun q => q.1 == n) = some (n, a) ∧
      (firstSeenPairs ps []).filter (fun q => q.1 == n) = [(n, a)] ∧
      (run d).lines = (firstSeenPairs ps []).map fmtLine ∧
      fmtLine (n, a) ∈ (run d).lines := by
  have hmem : n ∈ ps.map Prod.fst := List.count_pos_iff.mp (by omega)
  have hmem' : n ∈ (firstSeenPairs ps []).map Prod.fst := by
    rw [firstSeenPairs_map_fst]
    exact (mem_firstDedupFrom n _ []).mpr ⟨by simp, hmem⟩
  obtain ⟨p, hpmem, hp1⟩ := List.mem_map.mp hmem'
  obtain ⟨p1, p2⟩ := p
  simp only at hp1
  subst hp1
  obtain ⟨-, hfind⟩ := find?_of_mem_firstSeenPairs ps [] (p1, p2) hpmem
  have hnd : ((firstSeenPairs ps []).map Prod.fst).Nodup := by
    rw [firstSeenPairs_map_fst]
    exact nodup_firstDedupFrom _ _
  have hlines : (run d).lines = (firstSeenPairs ps []).map fmtLine := by
    rw [run_transactions d recs hd, extractLoop_pairsOf recs ps [] hps]
  exact ⟨p2, hfind, filter_fst_single _ (p1, p2) hnd hpmem, hlines,
    hlines ▸ List.mem_map.mpr ⟨(p1, p2), hpmem, rfl⟩⟩

/-- C1 witness: the spec's worked example, where `Token` appears twice and the
printed address is `0xAA`, the one at index 0. -/
theorem C1_first_seen_wins_witness :
    sampleDoc.transactions = some sampleRecs ∧
    pairsOf sampleRecs = some samplePairs ∧
    2 ≤ (samplePairs.map Prod.fst).count "Token" ∧
    ∃ a, samplePairs.find? (fun q => q.1 == "Token") = some ("Token", a) ∧
      (firstSeenPairs samplePairs []).filter (fun q => q.1 == "Token") =
        [("Token", a)] ∧
      (run sampleDoc).lines = (firstSeenPairs samplePairs []).map fmtLine ∧
      fmtLine ("Token", a) ∈ (run sampleDoc).lines :=
  ⟨rfl, by decide, by decide,
    C1_first_seen_wins sampleDoc sampleRecs samplePairs "Token" rfl
      (by decide) (by decide)⟩

/-- C2: on a schema-valid input the printed lines are exactly the formatted
first-occurrence pairs in input order; the printed names are pairwise ordered
by index of first appearance in the input, with no name missing or added. -/
theorem C2_first_appearance_order (d : Doc) (recs : List Record)
    (ps : List (String × String))
    (hd : d.transactions = some recs) (hps : pairsOf recs = some ps) :
    (run d).lines = (firstSeenPairs ps []).map fmtLine ∧
    ((firstSeenPairs ps []).map Prod.fst).Pairwise
      (fun a b => (ps.map Prod.fst).indexOf a < (ps.map Prod.fst).indexOf b) ∧
    ∀ x, x ∈ (firstSeenPairs ps []).map Prod.fst ↔ x ∈ ps.map Prod.fst := by
  refine ⟨?_, ?_, ?_⟩
  · rw [run_transactions d recs hd, extractLoop_pairsOf recs ps [] hps]
  · rw [firstSeenPairs_map_fst]
    exact pairwise_indexOf_firstDedupFrom (ps.map Prod.fst) []
  · intro x
    rw [firstSeenPairs_map_fst, mem_firstDedupFrom]
    simp

/-- C2 witness: the worked example, instantiated. -/
theorem C2_first_appearance_order_witness :
    sampleDoc.transactions = some sampleRecs ∧
    pairsOf sampleRecs = some samplePairs ∧
    ((run sampleDoc).lines = (firstSeenPairs samplePairs []).map fmtLine ∧
     ((firstSeenPairs samplePairs []).map Prod.fst).Pairwise
       (fun a b => (samplePairs.map Prod.fst).indexOf a <
         (samplePairs.map Prod.fst).indexOf b) ∧
     ∀ x, x ∈ (firstSeenPairs samplePairs []).map Prod.fst ↔
       x ∈ samplePairs.map Prod.fst) :=
  ⟨rfl, by decide,
    C2_first_appearance_order sampleDoc sampleRecs samplePairs rfl (by decide)⟩

/-- C3: on a schema-valid input with K distinct contract names, exactly K
lines are printed (K is the card of the finset of names), the loop completes
without error, and an empty transactions list prints nothing and succeeds. -/
theorem C3_line_count (d : Doc) (recs : List Record)
    (ps : List (String × String))
    (hd : d.transactions = some recs) (hps : pairsOf recs = some ps) :
    (run d).lines.length = (ps.map Prod.fst).toFinset.card ∧
    (run d).error = none ∧
    (recs = [] → run d = ⟨[], [], none⟩) := by
  rw [run_transactions d recs hd, extractLoop_pairsOf recs ps [] hps]
  refine ⟨?_, rfl, ?_⟩
  · simp only [List.length_map]
    have h1 : (firstSeenPairs ps []).length
        = ((firstSeenPairs ps []).map Prod.fst).length := by simp
    rw [h1, firstSeenPairs_map_fst]
    have h2 : (firstDedupFrom [] (ps.map Prod.fst)).toFinset
        = (ps.map Prod.fst).toFinset := by
      ext x
      simp [mem_firstDedupFrom]
    rw [← h2, List.toFinset_card_of_nodup (nodup_firstDedupFrom _ _)]
  · intro hrecs
    subst hrecs
    have hnil : ps = [] := by
      simp only [pairsOf, Option.some.injEq] at hps
      exact hps.symm
    subst hnil
    simp [firstSeenPairs]

/-- C3 witness: the worked example has 3 records, 2 distinct names, 2 lines;
and the empty input prints nothing. -/
theorem C3_line_count_witness :
    (pairsOf sampleRecs = some samplePairs ∧
      (run sampleDoc).lines.length = (samplePairs.map Prod.fst).toFinset.card ∧
      (run sampleDoc).error = none) ∧
    ((run ⟨some [], []⟩).lines.length =
        (([] : List (String × String)).map Prod.fst).toFinset.card ∧
      (run ⟨some [], []⟩).error = none ∧
      run ⟨some [], []⟩ = ⟨[], [], none⟩) :=
  ⟨⟨by decide,
    (C3_line_count sampleDoc sampleRecs samplePairs rfl (by decide)).1,
    (C3_line_count sampleDoc sampleRecs samplePairs rfl (by decide)).2.1⟩,
   ⟨(C3_line_count ⟨some [], []⟩ [] [] rfl (by decide)).1,
    (C3_line_count ⟨some [], []⟩ [] [] rfl (by decide)).2.1,
    (C3_line_count ⟨some [], []⟩ [] [] rfl (by decide)).2.2 rfl⟩⟩

/-- C4: every printed line is the record's name left-justified to a minimum
field width of 12 (right-padded with spaces to exactly 12 when shorter,
unchanged with no truncation when 12 or longer), one separator space, and the
record's address verbatim. -/
theorem C4_line_format (d : Doc) (l : String) (hl : l ∈ (run d).lines) :
    ∃ recs, d.transactions = some recs ∧
      ∃ k ∈ recs, ∃ name addr,
        getKey k "contractName" = some name ∧
        getKey k "contractAddress" = some addr ∧
        l = ljust name 12 ++ " " ++ addr ∧
        ljust name 12 =
          name ++ String.mk (List.replicate (12 - name.length) ' ') ∧
        (name.length < 12 → (ljust name 12).length = 12) ∧
        (12 ≤ name.length → ljust name 12 = name) := by
  cases hd : d.transactions with
  | none =>
    rw [run_no_transactions d hd] at hl
    simp at hl
  | some recs =>
    rw [run_transactions d recs hd] at hl
    obtain ⟨k, hk, n, a, hn, ha, hfmt⟩ := mem_lines_extractLoop recs [] l hl
    refine ⟨recs, rfl, k, hk, n, a, hn, ha, hfmt, rfl, ?_, ljust_eq_self n 12⟩
    intro hlt
    rw [ljust_length]
    omega

/-- C4 witness: the `Token` line of the worked example. -/
theorem C4_line_format_witness :
    "Token        0xAA" ∈ (run sampleDoc).lines ∧
    ∃ recs, sampleDoc.transactions = some recs ∧
      ∃ k ∈ recs, ∃ name addr,
        getKey k "contractName" = some name ∧
        getKey k "contractAddress" = some addr ∧
        "Token        0xAA" = ljust name 12 ++ " " ++ addr ∧
        ljust name 12 =
          name ++ String.mk (List.replicate (12 - name.length) ' ') ∧
        (name.length < 12 → (ljust name 12).length = 12) ∧
        (12 ≤ name.length → ljust name 12 = name) :=
  ⟨by decide, C4_line_format sampleDoc "Token        0xAA" (by decide)⟩

/-- C5 counterexample: the claim says the script fails whenever any record
lacks `contractAddress`; in `docDupNoAddr` the second record lacks it, yet
the run completes with no error, because the duplicate name short-circuits
the address lookup. -/
theorem C5_counterexample :
    docDupNoAddr.transactions =
      some [[("contractName", "Token"), ("contractAddress", "0xAA")],
            [("contractName", "Token")]] ∧
    (∃ k ∈ [[("contractName", "Token"), ("contractAddress", "0xAA")],
            [("contractName", "Token")]],
      getKey k "contractAddress" = none) ∧
    (run docDupNoAddr).error = none := by
  decide

/-- C5 (amended): the run fails with an uncaught key error when
`transactions` is absent, when some record lacks `contractName`, and when a
record that is the first in the list bearing its name lacks
`contractAddress`; it raises no such error when all records carry both keys.
(A duplicate-name record lacking `contractAddress` raises no error: its
address is never read.) -/
theorem C5_schema_errors (d : Doc) :
    (d.transactions = none → (run d).error = some "transactions") ∧
    (∀ recs, d.transactions = some recs →
      ((∃ k ∈ recs, getKey k "contractName" = none) →
        (run d).error ≠ none) ∧
      (∀ pre k post n, recs = pre ++ k :: post →
        getKey k "contractName" = some n →
        getKey k "contractAddress" = none →
        (∀ k' ∈ pre, getKey k' "contractName" ≠ some n) →
        (run d).error ≠ none) ∧
      ((∀ k ∈ recs, getKey k "contractName" ≠ none ∧
          getKey k "contractAddress" ≠ none) →
        (run d).error = none)) := by
  refine ⟨fun hd => by rw [run_no_transactions d hd],
    fun recs hd => ⟨?_, ?_, ?_⟩⟩
  · intro hex
    rw [run_transactions d recs hd]
    exact loop_error_of_missing_name recs [] hex
  · intro pre k post n hrecs hn ha hpre
    rw [run_transactions d recs hd, hrecs]
    exact loop_error_of_firstOcc_missing_addr pre k post n [] hn ha
      (by simp) hpre
  · intro hkeys
    obtain ⟨ps, hps⟩ := pairsOf_of_keys recs hkeys
    rw [run_transactions d recs hd]
    exact loop_error_none_of_pairs recs ps [] hps

/-- C5 witness: each amended case, instantiated on a concrete document. -/
theorem C5_schema_errors_witness :
    (docNoTrans.transactions = none ∧
      (run docNoTrans).error = some "transactions") ∧
    (run docNoName).error ≠ none ∧
    (run docNoAddrFirst).error ≠ none ∧
    (run sampleDoc).error = none :=
  ⟨⟨rfl, (C5_schema_errors docNoTrans).1 rfl⟩,
   ((C5_schema_errors docNoName).2 _ rfl).1
     ⟨[("contractAddress", "0xAA")], by decide, by decide⟩,
   ((C5_schema_errors docNoAddrFirst).2 _ rfl).2.1 [] [("contractName", "X")]
     [] "X" rfl (by decide) (by decide) (by simp),
   ((C5_schema_errors sampleDoc).2 _ rfl).2.2 (by decide)⟩

/-- C6: when the hardcoded path `P` is absent from the file system, the
script stops with the file-not-found error before the loop, printing no
lines (and recording no seen names). -/
theorem C6_missing_file (fs : String → Option String)
    (parse : String → Option Doc) (hfs : fs P = none) :
    script fs parse = ⟨[], [], some "FileNotFoundError"⟩ := by
  simp only [script, runScript, hfs]

/-- C6 witness: the empty file system. -/
theorem C6_missing_file_witness :
    ((fun _ : String => (none : Option String)) P = none) ∧
    script (fun _ => none) (fun _ => none) =
      ⟨[], [], some "FileNotFoundError"⟩ :=
  ⟨rfl, C6_missing_file (fun _ => none) (fun _ => none) rfl⟩

/-- C7: when the run fails mid-iteration there is a failing index i: the
printed output is exactly the lines of the clean run of the first i records;
nothing is retracted, and neither the failing record nor any later one adds a
line. -/
theorem C7_partial_output (d : Doc) (recs : List Record)
    (hd : d.transactions = some recs) (herr : (run d).error ≠ none) :
    ∃ i, i < recs.length ∧
      (extractLoop (recs.take i) []).error = none ∧
      (run d).lines = (extractLoop (recs.take i) []).lines ∧
      (extractLoop (recs.take (i + 1)) []).lines =
        (extractLoop (recs.take i) []).lines ∧
      (extractLoop (recs.take (i + 1)) []).error ≠ none := by
  rw [run_transactions d recs hd] at herr ⊢
  obtain ⟨i, hi, h1, h2, h3, h4⟩ := loop_error_take recs [] herr
  exact ⟨i, hi, h1, h2.symm, h3, h4⟩

/-- C7 witness: `docMidFail` prints its first line, then fails on the second
record. -/
theorem C7_partial_output_witness :
    docMidFail.transactions = some midFailRecs ∧
    (run docMidFail).error ≠ none ∧
    ∃ i, i < midFailRecs.length ∧
      (extractLoop (midFailRecs.take i) []).error = none ∧
      (run docMidFail).lines = (extractLoop (midFailRecs.take i) []).lines ∧
      (extractLoop (midFailRecs.take (i + 1)) []).lines =
        (extractLoop (midFailRecs.take i) []).lines ∧
      (extractLoop (midFailRecs.take (i + 1)) []).error ≠ none :=
  ⟨rfl, by decide, C7_partial_output docMidFail midFailRecs rfl (by decide)⟩

/-- C8: the result depends only on the indexed sequence of
(contractName, contractAddress) lookups: two documents whose transaction
lists agree on those two keys at every index produce identical results,
whatever additional keys appear in the records or at the top level. -/
theorem C8_ignores_extra_fields (d₁ d₂ : Doc) (recs₁ recs₂ : List Record)
    (h₁ : d₁.transactions = some recs₁) (h₂ : d₂.transactions = some recs₂)
    (hagree : List.Forall₂ (fun k₁ k₂ =>
      getKey k₁ "contractName" = getKey k₂ "contractName" ∧
      getKey k₁ "contractAddress" = getKey k₂ "contractAddress")
      recs₁ recs₂) :
    run d₁ = run d₂ := by
  rw [run_transactions d₁ recs₁ h₁, run_transactions d₂ recs₂ h₂]
  exact extractLoop_congr recs₁ recs₂ [] hagree

/-- C8 witness: the worked example and its decorated variant differ as
documents but produce the same output. -/
theorem C8_ignores_extra_fields_witness :
    run sampleDoc = run sampleDocExtra ∧ sampleDoc ≠ sampleDocExtra :=
  ⟨C8_ignores_extra_fields sampleDoc sampleDocExtra sampleRecs sampleRecsExtra
    rfl rfl
    (.cons ⟨by decide, by decide⟩ (.cons ⟨by decide, by decide⟩
      (.cons ⟨by decide, by decide⟩ .nil))),
   by decide⟩

/-- C9: the contractNames collection starts empty; after i records it holds
exactly the distinct names of the first i records, with no duplicates, in
order of first appearance (pairwise increasing index of first occurrence);
and from step i to i+1 it only grows by appending, never losing an
element. -/
theorem C9_seen_invariant (recs : List Record) (ps : List (String × String))
    (i : Nat) (hps : pairsOf recs = some ps) :
    (extractLoop (recs.take 0) []).contractNames = [] ∧
    ((extractLoop (recs.take i) []).contractNames).Nodup ∧
    (∀ x, x ∈ (extractLoop (recs.take i) []).contractNames ↔
      x ∈ (ps.take i).map Prod.fst) ∧
    ((extractLoop (recs.take i) []).contractNames).Pairwise
      (fun a b => ((ps.take i).map Prod.fst).indexOf a <
        ((ps.take i).map Prod.fst).indexOf b) ∧
    ∃ t, (extractLoop (recs.take (i + 1)) []).contractNames =
      (extractLoop (recs.take i) []).contractNames ++ t := by
  refine ⟨?_, ?_, ?_, ?_, ?_⟩
  · rw [contractNames_take recs ps 0 hps]
    simp [firstDedupFrom]
  · rw [contractNames_take recs ps i hps]
    exact nodup_firstDedupFrom _ _
  · intro x
    rw [contractNames_take recs ps i hps, mem_firstDedupFrom]
    simp
  · rw [contractNames_take recs ps i hps]
    exact pairwise_indexOf_firstDedupFrom _ _
  · rw [contractNames_take recs ps i hps,
      contractNames_take recs ps (i + 1) hps]
    have hmt : ∀ j, (ps.take j).map Prod.fst = (ps.map Prod.fst).take j :=
      fun j => by rw [List.map_take]
    rw [hmt i, hmt (i + 1), List.take_succ, firstDedupFrom_append]
    exact ⟨_, rfl⟩

/-- C9 witness: the worked example after two records. -/
theorem C9_seen_invariant_witness :
    pairsOf sampleRecs = some samplePairs ∧
    ((extractLoop (sampleRecs.take 0) []).contractNames = [] ∧
     ((extractLoop (sampleRecs.take 2) []).contractNames).Nodup ∧
     (∀ x, x ∈ (extractLoop (sampleRecs.take 2) []).contractNames ↔
       x ∈ (samplePairs.take 2).map Prod.fst) ∧
     ((extractLoop (sampleRecs.take 2) []).contractNames).Pairwise
       (fun a b => ((samplePairs.take 2).map Prod.fst).indexOf a <
         ((samplePairs.take 2).map Prod.fst).indexOf b) ∧
     ∃ t, (extractLoop (sampleRecs.take (2 + 1)) []).contractNames =
       (extractLoop (sampleRecs.take 2) []).contractNames ++ t) :=
  ⟨by decide, C9_seen_invariant sampleRecs samplePairs 2 (by decide)⟩

/-- C10: a record whose contractName occurred on an earlier record is skipped
before its contractAddress is read: the run equals the run with that record
deleted, whether or not the record carries contractAddress, so a duplicate
lacking the key prints nothing, raises nothing, and processing continues. -/
theorem C10_dup_skipped (d : Doc) (pre : List Record) (k : Record)
    (post : List Record) (n : String)
    (hd : d.transactions = some (pre ++ k :: post))
    (hn : getKey k "contractName" = some n)
    (hkeys : ∀ k' ∈ pre, getKey k' "contractName" ≠ none ∧
      getKey k' "contractAddress" ≠ none)
    (hdup : ∃ k' ∈ pre, getKey k' "contractName" = some n) :
    run d = extractLoop (pre ++ post) [] := by
  rw [run_transactions d _ hd]
  exact extractLoop_skip_dup pre k post n [] hn hkeys (Or.inr hdup)

/-- C10 witness: the duplicate `Token` record of `docDupNoAddr` lacks
`contractAddress`, yet the run equals the one-record run and succeeds. -/
theorem C10_dup_skipped_witness :
    getKey [("contractName", "Token")] "contractAddress" = none ∧
    run docDupNoAddr =
      extractLoop [[("contractName", "Token"), ("contractAddress", "0xAA")]]
        [] ∧
    (run docDupNoAddr).error = none :=
  ⟨by decide,
   C10_dup_skipped docDupNoAddr
     [[("contractName", "Token"), ("contractAddress", "0xAA")]]
     [("contractName", "Token")] [] "Token" rfl (by decide) (by decide)
     ⟨[("contractName", "Token"), ("contractAddress", "0xAA")],
       by decide, by decide⟩,
   by decide⟩

end Addresses
